import Mathlib

/-!
Shallow embedding of `src/queue.ts` (an ordered queue of keyed items,
sorted by an associated timestamp and, for ties, by lexicographic key),
together with proofs about its operations.

Modelling conventions:
* A JS object held in the queue is modelled by `Item`: an identity tag
  `id` plus its string `key`.  Equality of `Item` models JS reference
  identity (`===`); two items with different `id` model two distinct
  objects, which may coincidentally carry the same key.
* The `WeakMap` from item identity to timestamp is modelled by an
  association list `TsMap`; `tsGet`/`tsSet`/`tsDelete` model
  `get`/`set`/`delete`.
* Timestamps are integers (`Date.now()` values); the ambient clock is an
  explicit parameter `now`, used only to resolve an omitted timestamp
  argument.
* JS string comparison `a < b` compares code units left to right; it is
  modelled by `charsLt` on the characters of the strings (executable,
  unlike the library order on `String`).
* A thrown exception is modelled by returning the state at throw time
  together with `some errorMessage`; `none` means normal completion.
-/

structure Item where
  id : Nat
  key : String
deriving DecidableEq

/-- The timestamp association (the `WeakMap` of the source): item identity to integer timestamp. -/
abbrev TsMap := List (Item × Int)

/-- `timestampMap.get(x)`. -/
def tsGet (m : TsMap) (x : Item) : Option Int :=
  (m.find? (fun p => decide (p.1 = x))).map (fun p => p.2)

/-- `timestampMap.delete(x)`. -/
def tsDelete (m : TsMap) (x : Item) : TsMap :=
  m.filter (fun p => !(decide (p.1 = x)))

/-- `timestampMap.set(x, v)`: after it, `x` maps to `v` and all other items are unchanged. -/
def tsSet (m : TsMap) (x : Item) (v : Int) : TsMap :=
  (x, v) :: tsDelete m x

/-- The mutable state of one queue instance: the `items` array and the timestamp association. -/
structure QState where
  items : List Item
  tsMap : TsMap
deriving DecidableEq

/-- The state `makeQueue` starts from: no items, empty association. -/
def emptyQueue : QState := ⟨[], []⟩

/-- The error message of the source's `throw new Error(...)`. -/
def missingTsMsg : String := "Missing timestamp for item in queue"

/-- JS `<` on strings as lists of characters: code-point comparison, left to right. -/
def charsLt : List Char → List Char → Bool
  | _, [] => false
  | [], _ :: _ => true
  | c :: a, d :: b => if c = d then charsLt a b else decide (c.toNat < d.toNat)

/-- JS string comparison `a < b`. -/
def keyLt (a b : String) : Bool := charsLt a.data b.data

/-- The loop body's break test of `enqueue`:
`newItemTimestamp > endItemTimestamp || (newItemTimestamp === endItemTimestamp && newItem.key > endItem.key)`
(`false` when the candidate has no recorded timestamp, a case the scan turns into a fault). -/
def breaksScan (m : TsMap) (newTs : Int) (newKey : String) (a : Item) : Bool :=
  match tsGet m a with
  | some ta => decide (newTs > ta) || (decide (newTs = ta) && keyLt a.key newKey)
  | none => false

/-- The backward scan of `enqueue`, searching for the insertion position.
`findEndIndex m newTs newKey items n` models the loop with `endItemIndex = n - 1`;
the result is the final `endItemIndex + 1`, the index at which the new item is spliced in.
A missing timestamp for an inspected item throws. -/
def findEndIndex (m : TsMap) (newTs : Int) (newKey : String) (items : List Item) :
    Nat → Except String Nat
  | 0 => .ok 0
  | n + 1 =>
    match items.get? n with
    | none => .error missingTsMsg
    | some a =>
      match tsGet m a with
      | none => .error missingTsMsg
      | some ta =>
        if newTs > ta ∨ (newTs = ta ∧ keyLt a.key newKey = true) then .ok (n + 1)
        else findEndIndex m newTs newKey items n

/-- Insertion `items.splice(p, 0, x)` at index `p` (appends when `p` is past the end). -/
def insertAt : Nat → Item → List Item → List Item
  | 0, x, l => x :: l
  | _ + 1, x, [] => [x]
  | n + 1, x, a :: l => a :: insertAt n x l

/-- `enqueue(newItem, timestamp)`.  `t? = none` models an omitted timestamp argument,
in which case the supplied `now` (the value of `Date.now()`) is used.  A recorded
timestamp for the item takes precedence; the effective timestamp is recorded and the
item spliced in at the position found by the backward scan. -/
def enqueue (now : Int) (s : QState) (newItem : Item) (t? : Option Int) :
    QState × Option String :=
  let timestamp := t?.getD now
  let newItemTimestamp := (tsGet s.tsMap newItem).getD timestamp
  match findEndIndex s.tsMap newItemTimestamp newItem.key s.items s.items.length with
  | .error e => (s, some e)
  | .ok p =>
    (⟨insertAt p newItem s.items, tsSet s.tsMap newItem newItemTimestamp⟩, none)

/-- `dequeue()`: `items.shift()`, deleting the association entry of the removed item. -/
def dequeue (s : QState) : Option Item × QState :=
  match s.items with
  | [] => (none, s)
  | a :: rest => (some a, ⟨rest, tsDelete s.tsMap a⟩)

/-- The `while (l <= r)` binary search of `indexOfItemInQueue`, with an explicit
fuel argument giving an upper bound on the number of iterations (the caller passes
`items.length + 1`, which never runs out: the window `r + 1 - l` shrinks every
iteration).  `l` never goes below `0` and is kept as a `Nat`; `r` can reach `-1`.
Since `l + r ≥ 0` whenever the loop body runs, `(l + r) >> 1` is ordinary halving. -/
def bsearch (m : TsMap) (needle : Item) (needleTs : Int) (items : List Item) :
    Nat → Nat → Int → Except String (Option Nat)
  | 0, _, _ => .ok none
  | fuel + 1, l, r =>
    if (l : Int) ≤ r then
      let index := (l + r.toNat) / 2
      match items.get? index with
      | none => .error missingTsMsg
      | some hay =>
        match tsGet m hay with
        | none => .error missingTsMsg
        | some hayTs =>
          let direction : Int :=
            if needle = hay then 0
            else if needleTs - hayTs ≠ 0 then needleTs - hayTs
            else if keyLt hay.key needle.key then 1 else -1
          if direction > 0 then bsearch m needle needleTs items fuel (index + 1) r
          else if direction < 0 then bsearch m needle needleTs items fuel l ((index : Int) - 1)
          else .ok (some index)
    else .ok none

/-- `indexOfItemInQueue(needleItem)`: `-1` without a search when the needle has no
recorded timestamp, otherwise a binary search over the sequence; `-1` when not found. -/
def indexOfItemInQueue (s : QState) (needle : Item) : Except String Int :=
  match tsGet s.tsMap needle with
  | none => .ok (-1)
  | some needleTs =>
    match bsearch s.tsMap needle needleTs s.items (s.items.length + 1) 0
        ((s.items.length : Int) - 1) with
    | .error e => .error e
    | .ok none => .ok (-1)
    | .ok (some i) => .ok (i : Int)

/-- `remove(item)`: locate by identity, and if found splice out the located element and
delete its association entry (`items.splice(index, 1)` is a no-op past the end). -/
def remove (s : QState) (x : Item) : QState × Option String :=
  match indexOfItemInQueue s x with
  | .error e => (s, some e)
  | .ok index =>
    if 0 ≤ index then
      match s.items.get? index.toNat with
      | some it => (⟨s.items.eraseIdx index.toNat, tsDelete s.tsMap it⟩, none)
      | none => (⟨s.items.eraseIdx index.toNat, s.tsMap⟩, none)
    else (s, none)

/-- `requeue(item, timestamp)`: remove, re-set the association entry, re-enqueue.
The inner `enqueue` call omits its timestamp argument, exactly as in the source. -/
def requeue (now : Int) (s : QState) (x : Item) (t? : Option Int) :
    QState × Option String :=
  let timestamp := t?.getD now
  match remove s x with
  | (s₁, some e) => (s₁, some e)
  | (s₁, none) =>
    enqueue now ⟨s₁.items, tsSet s₁.tsMap x timestamp⟩ x none

/-- `list()`: the current ordered sequence. -/
def list (s : QState) : List Item := s.items

/-- One client call to the queue API. -/
inductive Op where
  | enqueueOp (x : Item) (t? : Option Int)
  | dequeueOp
  | removeOp (x : Item)
  | requeueOp (x : Item) (t? : Option Int)
deriving DecidableEq

/-- Apply one call; `now` is the value `Date.now()` would return during that call. -/
def applyOp (s : QState) : Int × Op → QState × Option String
  | (now, .enqueueOp x t?) => enqueue now s x t?
  | (_, .dequeueOp) => ((dequeue s).2, none)
  | (_, .removeOp x) => remove s x
  | (now, .requeueOp x t?) => requeue now s x t?

/-- Run a sequence of calls, collecting the error messages of the calls that threw
(a caller that catches exceptions and keeps using the queue). -/
def runOps : QState → List (Int × Op) → QState × List String
  | s, [] => (s, [])
  | s, op :: rest =>
    match applyOp s op with
    | (s', e) =>
      match runOps s' rest with
      | (s'', es) =>
        (s'', match e with | some msg => msg :: es | none => es)

/-- The spec's ordering on two in-queue items:
`timestamp(a) < timestamp(b) OR (timestamp(a) == timestamp(b) AND key(a) <= key(b))`
(`false` when either timestamp is missing). -/
def itemLeB (m : TsMap) (a b : Item) : Bool :=
  match tsGet m a, tsGet m b with
  | some ta, some tb => decide (ta < tb) || (decide (ta = tb) && !keyLt b.key a.key)
  | _, _ => false

/-- The sort invariant: every pair of adjacent items of the sequence is ordered by `itemLeB`. -/
def sortedSeqB (m : TsMap) : List Item → Bool
  | a :: b :: l => itemLeB m a b && sortedSeqB m (b :: l)
  | _ => true

/-- No item of `l` has the key of `x`. -/
def keyFresh (x : Item) (l : List Item) : Bool :=
  l.all (fun a => !(decide (a.key = x.key)))

/-- All keys in the sequence are pairwise distinct. -/
def keysDistinctB : List Item → Bool
  | [] => true
  | a :: l => keyFresh a l && keysDistinctB l

/-! ### Association map lemmas -/

theorem tsGet_cons (p : Item × Int) (m : TsMap) (y : Item) :
    tsGet (p :: m) y = if p.1 = y then some p.2 else tsGet m y := by
  by_cases h : p.1 = y <;> simp [tsGet, List.find?, h]

theorem tsGet_tsDelete (m : TsMap) (x y : Item) :
    tsGet (tsDelete m x) y = if y = x then none else tsGet m y := by
  induction m with
  | nil => by_cases h : y = x <;> simp [tsGet, tsDelete, h]
  | cons p m ih =>
    by_cases hpx : p.1 = x
    · rw [show tsDelete (p :: m) x = tsDelete m x by simp [tsDelete, List.filter_cons, hpx]]
      rw [ih, tsGet_cons]
      by_cases hyx : y = x
      · simp [hyx]
      · have hpy : ¬ p.1 = y := fun hc => hyx (by rw [← hc, hpx])
        simp [hyx, hpy]
    · rw [show tsDelete (p :: m) x = p :: tsDelete m x by simp [tsDelete, List.filter_cons, hpx]]
      rw [tsGet_cons, tsGet_cons, ih]
      by_cases hpy : p.1 = y
      · have hyx : ¬ y = x := fun hc => hpx (by rw [hpy, hc])
        simp [hpy, hyx]
      · simp [hpy]

theorem tsGet_tsSet (m : TsMap) (x : Item) (v : Int) (y : Item) :
    tsGet (tsSet m x v) y = if y = x then some v else tsGet m y := by
  rw [tsSet, tsGet_cons, tsGet_tsDelete]
  by_cases h : y = x
  · simp [h]
  · have : ¬ x = y := fun hc => h hc.symm
    simp [h, this]

theorem tsGet_tsSet_self (m : TsMap) (x : Item) (v : Int) :
    tsGet (tsSet m x v) x = some v := by
  simp [tsGet_tsSet]

/-! ### The JS string order -/

theorem char_toNat_inj {c d : Char} (h : c.toNat = d.toNat) : c = d :=
  Char.eq_of_val_eq (UInt32.toNat.inj h)

theorem charsLt_irrefl : ∀ a, charsLt a a = false
  | [] => rfl
  | c :: a => by simp [charsLt, charsLt_irrefl a]

theorem charsLt_trichot : ∀ a b, charsLt a b = true ∨ a = b ∨ charsLt b a = true
  | [], [] => Or.inr (Or.inl rfl)
  | [], _ :: _ => Or.inl rfl
  | _ :: _, [] => Or.inr (Or.inr rfl)
  | c :: a, d :: b => by
    by_cases hcd : c = d
    · subst hcd
      rcases charsLt_trichot a b with h | h | h
      · exact Or.inl (by simp [charsLt, h])
      · exact Or.inr (Or.inl (by rw [h]))
      · exact Or.inr (Or.inr (by simp [charsLt, h]))
    · rcases Nat.lt_trichotomy c.toNat d.toNat with h | h | h
      · exact Or.inl (by simp [charsLt, hcd, h])
      · exact absurd (char_toNat_inj h) hcd
      · have hdc : ¬ d = c := fun hc => hcd hc.symm
        exact Or.inr (Or.inr (by simp [charsLt, hdc, h]))

theorem charsLt_asymm : ∀ a b, charsLt a b = true → charsLt b a = false
  | [], [] => by simp [charsLt]
  | [], _ :: _ => by simp [charsLt]
  | _ :: _, [] => by simp [charsLt]
  | c :: a, d :: b => by
    intro h
    by_cases hcd : c = d
    · subst hcd
      simp only [charsLt, if_pos rfl] at h ⊢
      exact charsLt_asymm a b h
    · have hdc : ¬ d = c := fun hh => hcd hh.symm
      simp [charsLt, hcd] at h
      simp [charsLt, hdc]
      omega

theorem charsLt_trans : ∀ a b c, charsLt a b = true → charsLt b c = true → charsLt a c = true
  | _, [], _ => by simp [charsLt]
  | _, _ :: _, [] => by simp [charsLt]
  | [], _ :: _, _ :: _ => by simp [charsLt]
  | x :: a, y :: b, z :: c => by
    intro h1 h2
    by_cases hxy : x = y <;> by_cases hyz : y = z
    · subst hxy
      subst hyz
      simp only [charsLt, if_pos rfl] at h1 h2 ⊢
      exact charsLt_trans a b c h1 h2
    · subst hxy
      simp [charsLt, hyz] at h2 ⊢
      exact h2
    · subst hyz
      simp [charsLt, hxy] at h1 ⊢
      exact h1
    · by_cases hxz : x = z
      · subst hxz
        have hyx : ¬ y = x := fun hh => hxy hh.symm
        simp [charsLt, hxy] at h1
        simp [charsLt, hyx] at h2
        exact absurd (Nat.lt_trans h1 h2) (Nat.lt_irrefl _)
      · simp [charsLt, hxy] at h1
        simp [charsLt, hyz] at h2
        simp [charsLt, hxz]
        omega

theorem string_data_inj {a b : String} (h : a.data = b.data) : a = b := by
  cases a
  cases b
  exact congrArg String.mk h

theorem keyLt_irrefl (a : String) : keyLt a a = false := charsLt_irrefl _

theorem keyLt_asymm {a b : String} (h : keyLt a b = true) : keyLt b a = false :=
  charsLt_asymm _ _ h

theorem keyLt_trans {a b c : String} (h1 : keyLt a b = true) (h2 : keyLt b c = true) :
    keyLt a c = true :=
  charsLt_trans _ _ _ h1 h2

theorem keyLt_total {a b : String} (h1 : keyLt a b = false) (h2 : keyLt b a = false) :
    a = b := by
  rcases charsLt_trichot a.data b.data with h | h | h
  · rw [keyLt] at h1; rw [h1] at h; exact absurd h (by simp)
  · exact string_data_inj h
  · rw [keyLt] at h2; rw [h2] at h; exact absurd h (by simp)

/-! ### Ordering of in-queue items: transitivity and congruence -/

theorem keyLt_false_trans {a b c : String} (h1 : keyLt b a = false) (h2 : keyLt c b = false) :
    keyLt c a = false := by
  by_cases hab : keyLt a b = true
  · by_contra hca
    rw [Bool.not_eq_false] at hca
    have hcb : keyLt c b = true := keyLt_trans hca hab
    rw [h2] at hcb
    exact absurd hcb (by simp)
  · have hab' : keyLt a b = false := by
      cases hh : keyLt a b
      · rfl
      · exact absurd hh hab
    have hba : a = b := keyLt_total hab' h1
    subst hba
    exact h2

theorem itemLeB_some {m : TsMap} {a b : Item} {ta tb : Int} (ha : tsGet m a = some ta)
    (hb : tsGet m b = some tb) :
    itemLeB m a b = true ↔ (ta < tb ∨ (ta = tb ∧ keyLt b.key a.key = false)) := by
  rw [itemLeB, ha, hb]
  simp

theorem itemLeB_trans {m : TsMap} {a b c : Item} (h1 : itemLeB m a b = true)
    (h2 : itemLeB m b c = true) : itemLeB m a c = true := by
  cases hga : tsGet m a with
  | none => rw [itemLeB, hga] at h1; simp at h1
  | some ta =>
    cases hgb : tsGet m b with
    | none => rw [itemLeB, hga, hgb] at h1; simp at h1
    | some tb =>
      cases hgc : tsGet m c with
      | none => rw [itemLeB, hgb, hgc] at h2; simp at h2
      | some tc =>
        rw [itemLeB_some hga hgb] at h1
        rw [itemLeB_some hgb hgc] at h2
        rw [itemLeB_some hga hgc]
        rcases h1 with h1 | ⟨he1, hk1⟩
        · rcases h2 with h2 | ⟨he2, _⟩
          · exact Or.inl (by omega)
          · exact Or.inl (by omega)
        · rcases h2 with h2 | ⟨he2, hk2⟩
          · exact Or.inl (by omega)
          · exact Or.inr ⟨by omega, keyLt_false_trans hk1 hk2⟩

theorem itemLeB_congr {m m' : TsMap} {a b : Item} (ha : tsGet m' a = tsGet m a)
    (hb : tsGet m' b = tsGet m b) : itemLeB m' a b = itemLeB m a b := by
  rw [itemLeB, itemLeB, ha, hb]

/-! ### Sortedness helpers -/

theorem sortedSeqB_cons {m : TsMap} {a : Item} {l : List Item} :
    sortedSeqB m (a :: l) = true ↔
      (∀ b, l.get? 0 = some b → itemLeB m a b = true) ∧ sortedSeqB m l = true := by
  cases l with
  | nil => simp [sortedSeqB]
  | cons b l =>
    rw [show sortedSeqB m (a :: b :: l) = (itemLeB m a b && sortedSeqB m (b :: l)) from rfl]
    rw [Bool.and_eq_true]
    constructor
    · rintro ⟨h1, h2⟩
      refine ⟨fun c hc => ?_, h2⟩
      cases hc
      exact h1
    · rintro ⟨h1, h2⟩
      exact ⟨h1 b rfl, h2⟩

theorem sorted_head_le {m : TsMap} : ∀ {l : List Item} {a b : Item} {j : Nat},
    sortedSeqB m (a :: l) = true → l.get? j = some b → itemLeB m a b = true
  | [], a, b, j => by intro _ h; simp at h
  | c :: l, a, b, 0 => by
    intro hs hj
    have hbc : b = c := by simpa using hj.symm
    subst hbc
    exact (sortedSeqB_cons.mp hs).1 b rfl
  | c :: l, a, b, j + 1 => by
    intro hs hj
    have hac : itemLeB m a c = true := (sortedSeqB_cons.mp hs).1 c rfl
    have hrest : sortedSeqB m (c :: l) = true := (sortedSeqB_cons.mp hs).2
    exact itemLeB_trans hac (sorted_head_le hrest hj)

theorem sorted_le_of_lt {m : TsMap} : ∀ {l : List Item} {i j : Nat} {a b : Item},
    sortedSeqB m l = true → i < j → l.get? i = some a → l.get? j = some b →
    itemLeB m a b = true
  | [], i, j, a, b => by intro _ _ h; simp at h
  | c :: l, 0, j, a, b => by
    intro hs hij ha hb
    cases ha
    match j, hij with
    | j + 1, _ => exact sorted_head_le hs hb
  | c :: l, i + 1, j, a, b => by
    intro hs hij ha hb
    match j, hij with
    | j + 1, hij =>
      exact sorted_le_of_lt (sortedSeqB_cons.mp hs).2 (Nat.lt_of_succ_lt_succ hij) ha hb

theorem sorted_of_adjacent {m : TsMap} : ∀ {l : List Item},
    (∀ i a b, l.get? i = some a → l.get? (i + 1) = some b → itemLeB m a b = true) →
    sortedSeqB m l = true
  | [] => by intro _; rfl
  | [a] => by intro _; rfl
  | a :: b :: l => by
    intro h
    rw [show sortedSeqB m (a :: b :: l) = (itemLeB m a b && sortedSeqB m (b :: l)) from rfl]
    rw [Bool.and_eq_true]
    refine ⟨h 0 a b rfl rfl, sorted_of_adjacent fun i c d hc hd => ?_⟩
    exact h (i + 1) c d hc hd

theorem sortedSeqB_congr {m m' : TsMap} : ∀ {l : List Item},
    (∀ a ∈ l, tsGet m' a = tsGet m a) → sortedSeqB m' l = sortedSeqB m l
  | [] => by intro _; rfl
  | [a] => by intro _; rfl
  | a :: b :: l => by
    intro h
    rw [show sortedSeqB m' (a :: b :: l) = (itemLeB m' a b && sortedSeqB m' (b :: l)) from rfl]
    rw [show sortedSeqB m (a :: b :: l) = (itemLeB m a b && sortedSeqB m (b :: l)) from rfl]
    rw [itemLeB_congr (h a (by simp)) (h b (by simp))]
    rw [sortedSeqB_congr fun c hc => h c (List.mem_cons_of_mem a hc)]

/-! ### Insertion and deletion helpers -/

theorem mem_insertAt : ∀ (p : Nat) (x : Item) (l : List Item) (b : Item),
    b ∈ insertAt p x l → b = x ∨ b ∈ l
  | 0, x, l, b => by
    intro h
    simpa [insertAt] using h
  | _ + 1, x, [], b => by
    intro h
    simp [insertAt] at h
    exact Or.inl h
  | p + 1, x, a :: l, b => by
    intro h
    simp only [insertAt, List.mem_cons] at h
    rcases h with h | h
    · exact Or.inr (by simp [h])
    · rcases mem_insertAt p x l b h with h' | h'
      · exact Or.inl h'
      · exact Or.inr (by simp [h'])

theorem sorted_insertAt {m : TsMap} {x : Item} :
    ∀ {p : Nat} {l : List Item}, sortedSeqB m l = true → p ≤ l.length →
    (p = 0 ∨ ∃ a, l.get? (p - 1) = some a ∧ itemLeB m a x = true) →
    (∀ b, l.get? p = some b → itemLeB m x b = true) →
    sortedSeqB m (insertAt p x l) = true
  | 0, l => by
    intro hs _ _ hafter
    exact sortedSeqB_cons.mpr ⟨hafter, hs⟩
  | p + 1, [] => by
    intro _ hlen _ _
    exact absurd hlen (by simp)
  | p + 1, a :: l => by
    intro hs hlen hbefore hafter
    show sortedSeqB m (a :: insertAt p x l) = true
    refine sortedSeqB_cons.mpr ⟨?_, ?_⟩
    · intro b hb
      match p, l, hlen with
      | 0, l, _ =>
        cases hb
        rcases hbefore with h | ⟨c, hc, hcx⟩
        · exact absurd h (by simp)
        · cases hc
          exact hcx
      | q + 1, [], hlen => exact absurd hlen (by simp)
      | q + 1, c :: l, _ =>
        have hbc : b = c := by simpa [insertAt] using hb.symm
        subst hbc
        exact (sortedSeqB_cons.mp hs).1 b rfl
    · refine sorted_insertAt (sortedSeqB_cons.mp hs).2 (Nat.le_of_succ_le_succ hlen) ?_
        (fun b hb => hafter b hb)
      match p with
      | 0 => exact Or.inl rfl
      | q + 1 =>
        rcases hbefore with h | ⟨c, hc, hcx⟩
        · exact absurd h (by simp)
        · exact Or.inr ⟨c, hc, hcx⟩

theorem get?_eraseIdx : ∀ (l : List Item) (i j : Nat),
    (l.eraseIdx i).get? j = if j < i then l.get? j else l.get? (j + 1)
  | [], i, j => by cases i <;> simp [List.eraseIdx]
  | a :: l, 0, j => by simp [List.eraseIdx]
  | a :: l, i + 1, 0 => by simp [List.eraseIdx]
  | a :: l, i + 1, j + 1 => by
    show (l.eraseIdx i).get? j = _
    rw [get?_eraseIdx l i j]
    by_cases h : j < i
    · rw [if_pos h, if_pos (by omega : j + 1 < i + 1)]
      rfl
    · rw [if_neg h, if_neg (by omega : ¬ j + 1 < i + 1)]
      rfl

theorem sorted_eraseIdx {m : TsMap} {l : List Item} {i : Nat}
    (h : sortedSeqB m l = true) : sortedSeqB m (l.eraseIdx i) = true := by
  apply sorted_of_adjacent
  intro j a b hja hjb
  rw [get?_eraseIdx] at hja hjb
  by_cases h1 : j < i <;> by_cases h2 : j + 1 < i
  · rw [if_pos h1] at hja
    rw [if_pos h2] at hjb
    exact sorted_le_of_lt h (by omega) hja hjb
  · rw [if_pos h1] at hja
    rw [if_neg h2] at hjb
    exact sorted_le_of_lt h (by omega) hja hjb
  · omega
  · rw [if_neg h1] at hja
    rw [if_neg h2] at hjb
    exact sorted_le_of_lt h (by omega) hja hjb

theorem mem_of_mem_eraseIdx : ∀ {l : List Item} {i : Nat} {b : Item},
    b ∈ l.eraseIdx i → b ∈ l
  | [], i, b => by simp [List.eraseIdx]
  | a :: l, 0, b => by
    intro h
    exact List.mem_cons_of_mem a h
  | a :: l, i + 1, b => by
    intro h
    rcases List.mem_cons.mp h with h | h
    · simp [h]
    · exact List.mem_cons_of_mem a (mem_of_mem_eraseIdx h)

/-! ### Key-distinctness helpers -/

theorem keyFresh_iff {x : Item} {l : List Item} :
    keyFresh x l = true ↔ ∀ a ∈ l, a.key ≠ x.key := by
  simp [keyFresh, List.all_eq_true]

theorem keyFresh_not_mem {x : Item} {l : List Item} (h : keyFresh x l = true) : x ∉ l :=
  fun hm => absurd rfl (keyFresh_iff.mp h x hm)

theorem keysDistinctB_cons {a : Item} {l : List Item} :
    keysDistinctB (a :: l) = true ↔ keyFresh a l = true ∧ keysDistinctB l = true := by
  rw [show keysDistinctB (a :: l) = (keyFresh a l && keysDistinctB l) from rfl]
  exact Bool.and_eq_true ..  |>.to_iff

theorem keysDistinct_mem_ne {l : List Item} (h : keysDistinctB l = true) :
    ∀ a ∈ l, ∀ b ∈ l, a ≠ b → a.key ≠ b.key := by
  induction l with
  | nil => simp
  | cons c l ih =>
    obtain ⟨hf, hrest⟩ := keysDistinctB_cons.mp h
    intro a ha b hb hne
    rcases List.mem_cons.mp ha with rfl | ha' <;> rcases List.mem_cons.mp hb with rfl | hb'
    · exact absurd rfl hne
    · exact fun hc => (keyFresh_iff.mp hf b hb') hc.symm
    · exact keyFresh_iff.mp hf a ha'
    · exact ih hrest a ha' b hb' hne

theorem keysDistinct_get?_inj : ∀ {l : List Item} {i j : Nat} {x : Item},
    keysDistinctB l = true → l.get? i = some x → l.get? j = some x → i = j
  | [], i, j, x => by
    intro _ h
    simp at h
  | a :: l, 0, 0, x => by
    intro _ _ _
    rfl
  | a :: l, 0, j + 1, x => by
    intro h h0 hj
    obtain rfl : a = x := by simpa using h0
    obtain ⟨hf, _⟩ := keysDistinctB_cons.mp h
    exact absurd rfl (keyFresh_iff.mp hf a (List.get?_mem hj))
  | a :: l, i + 1, 0, x => by
    intro h hi h0
    obtain rfl : a = x := by simpa using h0
    obtain ⟨hf, _⟩ := keysDistinctB_cons.mp h
    exact absurd rfl (keyFresh_iff.mp hf a (List.get?_mem hi))
  | a :: l, i + 1, j + 1, x => by
    intro h hi hj
    obtain ⟨_, hrest⟩ := keysDistinctB_cons.mp h
    rw [keysDistinct_get?_inj hrest hi hj]

theorem keysDistinct_eraseIdx : ∀ {l : List Item} {i : Nat},
    keysDistinctB l = true → keysDistinctB (l.eraseIdx i) = true
  | [], i => by simp [List.eraseIdx]
  | a :: l, 0 => fun h => (keysDistinctB_cons.mp h).2
  | a :: l, i + 1 => by
    intro h
    obtain ⟨hf, hrest⟩ := keysDistinctB_cons.mp h
    refine keysDistinctB_cons.mpr ⟨?_, keysDistinct_eraseIdx hrest⟩
    exact keyFresh_iff.mpr fun b hb => keyFresh_iff.mp hf b (mem_of_mem_eraseIdx hb)

theorem keysDistinct_insertAt {x : Item} : ∀ {p : Nat} {l : List Item},
    keysDistinctB l = true → keyFresh x l = true → keysDistinctB (insertAt p x l) = true
  | 0, l => fun h hf => keysDistinctB_cons.mpr ⟨hf, h⟩
  | _ + 1, [] => by
    intro _ _
    rfl
  | p + 1, a :: l => by
    intro h hf
    obtain ⟨hfa, hrest⟩ := keysDistinctB_cons.mp h
    have hfx : keyFresh x l = true :=
      keyFresh_iff.mpr fun b hb => keyFresh_iff.mp hf b (List.mem_cons_of_mem a hb)
    refine keysDistinctB_cons.mpr ⟨?_, keysDistinct_insertAt hrest hfx⟩
    refine keyFresh_iff.mpr fun b hb => ?_
    rcases mem_insertAt p x l b hb with rfl | hb'
    · exact fun hc => (keyFresh_iff.mp hf a (by simp)) hc.symm
    · exact keyFresh_iff.mp hfa b hb'

theorem self_mem_insertAt (x : Item) : ∀ (p : Nat) (l : List Item), x ∈ insertAt p x l
  | 0, l => by simp [insertAt]
  | _ + 1, [] => by simp [insertAt]
  | p + 1, a :: l => by
    simp only [insertAt, List.mem_cons]
    exact Or.inr (self_mem_insertAt x p l)

theorem mem_insertAt_of_mem {b : Item} (x : Item) :
    ∀ (p : Nat) (l : List Item), b ∈ l → b ∈ insertAt p x l
  | 0, l, h => by simp [insertAt, h]
  | _ + 1, [], h => by simp at h
  | p + 1, a :: l, h => by
    simp only [insertAt, List.mem_cons]
    rcases List.mem_cons.mp h with h | h
    · exact Or.inl h
    · exact Or.inr (mem_insertAt_of_mem x p l h)

/-! ### The backward scan of enqueue -/

theorem breaksScan_true {m : TsMap} {ts : Int} {key : String} {a : Item} {ta : Int}
    (hget : tsGet m a = some ta) (h : breaksScan m ts key a = true) :
    ts > ta ∨ (ts = ta ∧ keyLt a.key key = true) := by
  rw [breaksScan, hget] at h
  simpa using h

theorem breaksScan_false {m : TsMap} {ts : Int} {key : String} {a : Item} {ta : Int}
    (hget : tsGet m a = some ta) (h : breaksScan m ts key a = false) :
    ¬ ts > ta ∧ (ts = ta → keyLt a.key key = false) := by
  rw [breaksScan, hget] at h
  simp only [Bool.or_eq_false_iff, Bool.and_eq_false_iff, decide_eq_false_iff_not] at h
  refine ⟨h.1, fun he => ?_⟩
  rcases h.2 with h2 | h2
  · exact absurd he (by simpa using h2)
  · simpa using h2

theorem breaksScan_of_cond {m : TsMap} {ts : Int} {key : String} {a : Item} {ta : Int}
    (hget : tsGet m a = some ta) (h : ts > ta ∨ (ts = ta ∧ keyLt a.key key = true)) :
    breaksScan m ts key a = true := by
  rw [breaksScan, hget]
  rcases h with h | ⟨h1, h2⟩
  · simp [h]
  · simp [h1, h2]

theorem breaksScan_not_of_cond {m : TsMap} {ts : Int} {key : String} {a : Item} {ta : Int}
    (hget : tsGet m a = some ta) (h : ¬ (ts > ta ∨ (ts = ta ∧ keyLt a.key key = true))) :
    breaksScan m ts key a = false := by
  rw [breaksScan, hget]
  push_neg at h
  simp only [Bool.or_eq_false_iff, Bool.and_eq_false_iff, decide_eq_false_iff_not]
  refine ⟨Int.not_lt.mpr h.1, ?_⟩
  by_cases he : ts = ta
  · exact Or.inr (by simpa using h.2 he)
  · exact Or.inl (by simpa using he)

theorem findEndIndex_spec (m : TsMap) (ts : Int) (key : String) {items : List Item} :
    ∀ {n : Nat}, n ≤ items.length →
    (∀ a ∈ items, (tsGet m a).isSome = true) →
    ∃ p, findEndIndex m ts key items n = .ok p ∧ p ≤ n ∧
      (p = 0 ∨ ∃ a, items.get? (p - 1) = some a ∧ breaksScan m ts key a = true) ∧
      (∀ j b, p ≤ j → j < n → items.get? j = some b → breaksScan m ts key b = false) := by
  intro n
  induction n with
  | zero =>
    intro _ _
    exact ⟨0, rfl, Nat.le_refl 0, Or.inl rfl, fun j b _ hj _ => absurd hj (Nat.not_lt_zero j)⟩
  | succ n ih =>
    intro hlen hts
    cases hga : items.get? n with
    | none =>
      exact absurd (List.get?_eq_none.mp hga) (by omega)
    | some a =>
      obtain ⟨ta, hta⟩ := Option.isSome_iff_exists.mp (hts a (List.get?_mem hga))
      by_cases hbrk : ts > ta ∨ (ts = ta ∧ keyLt a.key key = true)
      · refine ⟨n + 1, ?_, Nat.le_refl _, ?_, ?_⟩
        · simp only [findEndIndex, hga, hta]
          rw [if_pos hbrk]
        · exact Or.inr ⟨a, by simpa using hga, breaksScan_of_cond hta hbrk⟩
        · intro j b hj1 hj2 _
          omega
      · obtain ⟨p, heq, hple, hbef, hall⟩ := ih (by omega) hts
        refine ⟨p, ?_, by omega, hbef, ?_⟩
        · simp only [findEndIndex, hga, hta]
          rw [if_neg hbrk]
          exact heq
        · intro j b hj1 hj2 hjb
          by_cases hjn : j < n
          · exact hall j b hj1 hjn hjb
          · have : j = n := by omega
            subst this
            have hba : b = a := by
              rw [hga] at hjb
              simpa using hjb.symm
            subst hba
            exact breaksScan_not_of_cond hta hbrk

theorem enqueue_eq_ok {now : Int} {s : QState} {x : Item} {t? : Option Int} {p : Nat}
    (heq : findEndIndex s.tsMap ((tsGet s.tsMap x).getD (t?.getD now)) x.key s.items
      s.items.length = .ok p) :
    enqueue now s x t? =
      (⟨insertAt p x s.items,
        tsSet s.tsMap x ((tsGet s.tsMap x).getD (t?.getD now))⟩, none) := by
  simp only [enqueue, heq]

/-! ### Enqueue preserves well-formedness -/

theorem enqueue_wf (now : Int) (t? : Option Int) {s : QState} {x : Item}
    (hs : sortedSeqB s.tsMap s.items = true)
    (hts : ∀ a ∈ s.items, (tsGet s.tsMap a).isSome = true)
    (hdom : ∀ y v, tsGet s.tsMap y = some v → y ∈ s.items ∨ y = x)
    (hk : keysDistinctB s.items = true)
    (hf : keyFresh x s.items = true) :
    (enqueue now s x t?).2 = none ∧
    sortedSeqB (enqueue now s x t?).1.tsMap (enqueue now s x t?).1.items = true ∧
    (∀ a ∈ (enqueue now s x t?).1.items,
      (tsGet (enqueue now s x t?).1.tsMap a).isSome = true) ∧
    (∀ y v, tsGet (enqueue now s x t?).1.tsMap y = some v →
      y ∈ (enqueue now s x t?).1.items) ∧
    keysDistinctB (enqueue now s x t?).1.items = true := by
  have hxm : x ∉ s.items := keyFresh_not_mem hf
  obtain ⟨p, heq, hple, hbef, hall⟩ :=
    findEndIndex_spec s.tsMap ((tsGet s.tsMap x).getD (t?.getD now)) x.key
      (Nat.le_refl s.items.length) hts
  rw [enqueue_eq_ok heq]
  set eff := (tsGet s.tsMap x).getD (t?.getD now) with heff
  have hget' : ∀ a ∈ s.items, tsGet (tsSet s.tsMap x eff) a = tsGet s.tsMap a := by
    intro a ha
    rw [tsGet_tsSet]
    rw [if_neg (fun hc : a = x => hxm (hc ▸ ha))]
  refine ⟨rfl, ?_, ?_, ?_, ?_⟩
  · apply sorted_insertAt (m := tsSet s.tsMap x eff)
    · rw [sortedSeqB_congr hget']
      exact hs
    · exact hple
    · rcases hbef with h0 | ⟨a, hpa, hbrk⟩
      · exact Or.inl h0
      · refine Or.inr ⟨a, hpa, ?_⟩
        have ham : a ∈ s.items := List.get?_mem hpa
        obtain ⟨ta, hta⟩ := Option.isSome_iff_exists.mp (hts a ham)
        rw [itemLeB_some ((hget' a ham).trans hta) (tsGet_tsSet_self s.tsMap x eff)]
        rcases breaksScan_true hta hbrk with hgt | ⟨hge, hkey⟩
        · exact Or.inl (by omega)
        · exact Or.inr ⟨hge.symm, keyLt_asymm hkey⟩
    · intro b hpb
      have hbm : b ∈ s.items := List.get?_mem hpb
      obtain ⟨tb, htb⟩ := Option.isSome_iff_exists.mp (hts b hbm)
      obtain ⟨hplen, _⟩ := List.get?_eq_some.mp hpb
      have hfalse := hall p b (Nat.le_refl p) hplen hpb
      obtain ⟨hng, hke⟩ := breaksScan_false htb hfalse
      rw [itemLeB_some (tsGet_tsSet_self s.tsMap x eff) ((hget' b hbm).trans htb)]
      by_cases he : eff = tb
      · exact Or.inr ⟨he, hke he⟩
      · exact Or.inl (by omega)
  · intro a ha
    rcases mem_insertAt _ _ _ _ ha with rfl | ha'
    · rw [tsGet_tsSet_self]
      rfl
    · rw [hget' a ha']
      exact hts a ha'
  · intro y v hy
    rw [tsGet_tsSet] at hy
    by_cases hyx : y = x
    · subst hyx
      exact self_mem_insertAt y p s.items
    · rw [if_neg hyx] at hy
      rcases hdom y v hy with hm | he
      · exact mem_insertAt_of_mem x p s.items hm
      · exact absurd he hyx
  · exact keysDistinct_insertAt hk hf

/-! ### Dequeue preserves well-formedness -/

theorem dequeue_wf {s : QState}
    (hs : sortedSeqB s.tsMap s.items = true)
    (hts : ∀ a ∈ s.items, (tsGet s.tsMap a).isSome = true)
    (hdom : ∀ y v, tsGet s.tsMap y = some v → y ∈ s.items)
    (hk : keysDistinctB s.items = true) :
    sortedSeqB (dequeue s).2.tsMap (dequeue s).2.items = true ∧
    (∀ a ∈ (dequeue s).2.items, (tsGet (dequeue s).2.tsMap a).isSome = true) ∧
    (∀ y v, tsGet (dequeue s).2.tsMap y = some v → y ∈ (dequeue s).2.items) ∧
    keysDistinctB (dequeue s).2.items = true := by
  obtain ⟨items, m⟩ := s
  cases items with
  | nil => exact ⟨hs, hts, hdom, hk⟩
  | cons a rest =>
    simp only [dequeue] at hs hts hdom hk ⊢
    obtain ⟨hfa, hkrest⟩ := keysDistinctB_cons.mp hk
    have hmem_ne : ∀ b ∈ rest, b ≠ a :=
      fun b hb hc => (keyFresh_iff.mp hfa b hb) (by rw [hc])
    have hget' : ∀ b ∈ rest, tsGet (tsDelete m a) b = tsGet m b := by
      intro b hb
      rw [tsGet_tsDelete, if_neg (hmem_ne b hb)]
    refine ⟨?_, ?_, ?_, hkrest⟩
    · rw [sortedSeqB_congr hget']
      exact (sortedSeqB_cons.mp hs).2
    · intro b hb
      rw [hget' b hb]
      exact hts b (List.mem_cons_of_mem a hb)
    · intro y v hy
      rw [tsGet_tsDelete] at hy
      by_cases hya : y = a
      · rw [if_pos hya] at hy
        exact absurd hy (by simp)
      · rw [if_neg hya] at hy
        rcases List.mem_cons.mp (hdom y v hy) with he | hm
        · exact absurd he hya
        · exact hm

/-! ### Binary search: soundness, error-freedom, completeness -/

theorem bsearch_sound {m : TsMap} {x : Item} {tsX : Int} {items : List Item} :
    ∀ {fuel l : Nat} {r : Int} {i : Nat},
    bsearch m x tsX items fuel l r = .ok (some i) → items.get? i = some x := by
  intro fuel
  induction fuel with
  | zero =>
    intro l r i h
    exact absurd h (by simp [bsearch])
  | succ fuel ih =>
    intro l r i h
    by_cases hlr : (l : Int) ≤ r
    · cases hga : items.get? ((l + r.toNat) / 2) with
      | none =>
        simp only [bsearch, if_pos hlr, hga] at h
        exact absurd h (by simp)
      | some hay =>
        cases hth : tsGet m hay with
        | none =>
          simp only [bsearch, if_pos hlr, hga, hth] at h
          exact absurd h (by simp)
        | some hayTs =>
          simp only [bsearch, if_pos hlr, hga, hth] at h
          by_cases hxh : x = hay
          · rw [if_pos hxh] at h
            rw [if_neg (by omega : ¬ (0:Int) > 0), if_neg (by omega : ¬ (0:Int) < 0)] at h
            have hi : (l + r.toNat) / 2 = i := by simpa using h
            rw [← hi, hga, hxh]
          · rw [if_neg hxh] at h
            by_cases hd : tsX - hayTs ≠ 0
            · rw [if_pos hd] at h
              by_cases hpos : tsX - hayTs > 0
              · rw [if_pos hpos] at h
                exact ih h
              · rw [if_neg hpos, if_pos (by omega : tsX - hayTs < 0)] at h
                exact ih h
            · rw [if_neg hd] at h
              by_cases hkl : keyLt hay.key x.key = true
              · rw [if_pos hkl, if_pos (by omega : (1:Int) > 0)] at h
                exact ih h
              · rw [if_neg hkl, if_neg (by omega : ¬ (-1:Int) > 0),
                  if_pos (by omega : (-1:Int) < 0)] at h
                exact ih h
    · simp only [bsearch, if_neg hlr] at h
      exact absurd h (by simp)

theorem bsearch_no_error {m : TsMap} {x : Item} {tsX : Int} {items : List Item}
    (hts : ∀ a ∈ items, (tsGet m a).isSome = true) :
    ∀ {fuel l : Nat} {r : Int}, r < (items.length : Int) →
    ∃ res, bsearch m x tsX items fuel l r = .ok res := by
  intro fuel
  induction fuel with
  | zero =>
    intro l r _
    exact ⟨none, rfl⟩
  | succ fuel ih =>
    intro l r hr
    by_cases hlr : (l : Int) ≤ r
    · have hidx : (l + r.toNat) / 2 < items.length := by omega
      obtain ⟨hay, hga⟩ : ∃ hay, items.get? ((l + r.toNat) / 2) = some hay := by
        cases hg : items.get? ((l + r.toNat) / 2) with
        | none => exact absurd (List.get?_eq_none.mp hg) (by omega)
        | some hay => exact ⟨hay, rfl⟩
      obtain ⟨hayTs, hth⟩ := Option.isSome_iff_exists.mp (hts hay (List.get?_mem hga))
      simp only [bsearch, if_pos hlr, hga, hth]
      by_cases hxh : x = hay
      · rw [if_pos hxh]
        rw [if_neg (by omega : ¬ (0:Int) > 0), if_neg (by omega : ¬ (0:Int) < 0)]
        exact ⟨some ((l + r.toNat) / 2), rfl⟩
      · rw [if_neg hxh]
        by_cases hd : tsX - hayTs ≠ 0
        · rw [if_pos hd]
          by_cases hpos : tsX - hayTs > 0
          · rw [if_pos hpos]
            exact ih hr
          · rw [if_neg hpos, if_pos (by omega : tsX - hayTs < 0)]
            exact ih (by omega)
        · rw [if_neg hd]
          by_cases hkl : keyLt hay.key x.key = true
          · rw [if_pos hkl, if_pos (by omega : (1:Int) > 0)]
            exact ih hr
          · rw [if_neg hkl, if_neg (by omega : ¬ (-1:Int) > 0),
              if_pos (by omega : (-1:Int) < 0)]
            exact ih (by omega)
    · exact ⟨none, by simp only [bsearch, if_neg hlr]⟩

theorem bsearch_find {m : TsMap} {x : Item} {tsX : Int} {items : List Item}
    (hs : sortedSeqB m items = true) (hk : keysDistinctB items = true)
    (hts : ∀ a ∈ items, (tsGet m a).isSome = true)
    (hgx : tsGet m x = some tsX) :
    ∀ {fuel l : Nat} {r : Int} {ix : Nat},
    items.get? ix = some x → l ≤ ix → (ix : Int) ≤ r → r < (items.length : Int) →
    (r + 1 - (l : Int)).toNat ≤ fuel →
    bsearch m x tsX items fuel l r = .ok (some ix) := by
  intro fuel
  induction fuel with
  | zero =>
    intro l r ix hix hlix hixr hr hfuel
    exfalso
    omega
  | succ fuel ih =>
    intro l r ix hix hlix hixr hr hfuel
    have hlr : (l : Int) ≤ r := by omega
    have hidxl : l ≤ (l + r.toNat) / 2 := by omega
    have hidxr : (l + r.toNat) / 2 ≤ r.toNat := by omega
    have hidxlen : (l + r.toNat) / 2 < items.length := by omega
    obtain ⟨hay, hga⟩ : ∃ hay, items.get? ((l + r.toNat) / 2) = some hay := by
      cases hg : items.get? ((l + r.toNat) / 2) with
      | none => exact absurd (List.get?_eq_none.mp hg) (by omega)
      | some hay => exact ⟨hay, rfl⟩
    obtain ⟨hayTs, hth⟩ := Option.isSome_iff_exists.mp (hts hay (List.get?_mem hga))
    simp only [bsearch, if_pos hlr, hga, hth]
    by_cases hxh : x = hay
    · subst hxh
      have hii : (l + r.toNat) / 2 = ix := keysDistinct_get?_inj hk hga hix
      simp [hii]
    · have hixne : ix ≠ (l + r.toNat) / 2 := by
        intro hc
        rw [hc, hga] at hix
        exact hxh (by simpa using hix.symm)
      rw [if_neg hxh]
      rcases Nat.lt_or_ge ix ((l + r.toNat) / 2) with hlt | hge
      · have hle := sorted_le_of_lt hs hlt hix hga
        rw [itemLeB_some hgx hth] at hle
        rcases hle with hltts | ⟨heq, hkf⟩
        · rw [if_pos (by omega : tsX - hayTs ≠ 0)]
          rw [if_neg (by omega : ¬ tsX - hayTs > 0), if_pos (by omega : tsX - hayTs < 0)]
          exact ih hix hlix (by omega) (by omega) (by omega)
        · rw [if_neg (by omega : ¬ tsX - hayTs ≠ 0)]
          rw [if_neg (by simp [hkf] : ¬ keyLt hay.key x.key = true)]
          rw [if_neg (by omega : ¬ (-1:Int) > 0), if_pos (by omega : (-1:Int) < 0)]
          exact ih hix hlix (by omega) (by omega) (by omega)
      · have hgt : (l + r.toNat) / 2 < ix := by omega
        have hle := sorted_le_of_lt hs hgt hga hix
        rw [itemLeB_some hth hgx] at hle
        have hkne : hay.key ≠ x.key :=
          keysDistinct_mem_ne hk hay (List.get?_mem hga) x (List.get?_mem hix)
            (fun hc => hxh hc.symm)
        rcases hle with hltts | ⟨heq, hkf⟩
        · rw [if_pos (by omega : tsX - hayTs ≠ 0)]
          rw [if_pos (by omega : tsX - hayTs > 0)]
          exact ih hix (by omega) hixr hr (by omega)
        · have hkt : keyLt hay.key x.key = true := by
            cases hc : keyLt hay.key x.key
            · exact absurd (keyLt_total hc hkf) hkne
            · rfl
          rw [if_neg (by omega : ¬ tsX - hayTs ≠ 0), if_pos hkt]
          rw [if_pos (by omega : (1:Int) > 0)]
          exact ih hix (by omega) hixr hr (by omega)

theorem bsearch_error_msg {m : TsMap} {x : Item} {tsX : Int} {items : List Item} :
    ∀ {fuel l : Nat} {r : Int} {e : String},
    bsearch m x tsX items fuel l r = .error e → e = missingTsMsg := by
  intro fuel
  induction fuel with
  | zero =>
    intro l r e h
    exact absurd h (by simp [bsearch])
  | succ fuel ih =>
    intro l r e h
    by_cases hlr : (l : Int) ≤ r
    · cases hga : items.get? ((l + r.toNat) / 2) with
      | none =>
        simp only [bsearch, if_pos hlr, hga] at h
        simpa using h.symm
      | some hay =>
        cases hth : tsGet m hay with
        | none =>
          simp only [bsearch, if_pos hlr, hga, hth] at h
          simpa using h.symm
        | some hayTs =>
          simp only [bsearch, if_pos hlr, hga, hth] at h
          by_cases hxh : x = hay
          · rw [if_pos hxh] at h
            rw [if_neg (by omega : ¬ (0:Int) > 0), if_neg (by omega : ¬ (0:Int) < 0)] at h
            exact absurd h (by simp)
          · rw [if_neg hxh] at h
            by_cases hd : tsX - hayTs ≠ 0
            · rw [if_pos hd] at h
              by_cases hpos : tsX - hayTs > 0
              · rw [if_pos hpos] at h
                exact ih h
              · rw [if_neg hpos, if_pos (by omega : tsX - hayTs < 0)] at h
                exact ih h
            · rw [if_neg hd] at h
              by_cases hkl : keyLt hay.key x.key = true
              · rw [if_pos hkl, if_pos (by omega : (1:Int) > 0)] at h
                exact ih h
              · rw [if_neg hkl, if_neg (by omega : ¬ (-1:Int) > 0),
                  if_pos (by omega : (-1:Int) < 0)] at h
                exact ih h
    · simp only [bsearch, if_neg hlr] at h
      exact absurd h (by simp)

/-! ### Locate and remove -/

theorem indexOf_found {s : QState} {x : Item} {tsX : Int} {ix : Nat}
    (hs : sortedSeqB s.tsMap s.items = true) (hk : keysDistinctB s.items = true)
    (hts : ∀ a ∈ s.items, (tsGet s.tsMap a).isSome = true)
    (hgx : tsGet s.tsMap x = some tsX) (hix : s.items.get? ix = some x) :
    indexOfItemInQueue s x = .ok (ix : Int) := by
  obtain ⟨hlen, -⟩ := List.get?_eq_some.mp hix
  have hb : bsearch s.tsMap x tsX s.items (s.items.length + 1) 0
      ((s.items.length : Int) - 1) = .ok (some ix) :=
    bsearch_find hs hk hts hgx hix (Nat.zero_le ix) (by omega) (by omega) (by omega)
  simp only [indexOfItemInQueue, hgx, hb]

theorem indexOf_not_mem {s : QState} {x : Item}
    (hts : ∀ a ∈ s.items, (tsGet s.tsMap a).isSome = true) (hxm : x ∉ s.items) :
    indexOfItemInQueue s x = .ok (-1) := by
  cases hgx : tsGet s.tsMap x with
  | none => simp only [indexOfItemInQueue, hgx]
  | some tsX =>
    obtain ⟨res, hres⟩ : ∃ res, bsearch s.tsMap x tsX s.items (s.items.length + 1) 0
        ((s.items.length : Int) - 1) = .ok res :=
      bsearch_no_error hts (by omega)
    cases res with
    | none => simp only [indexOfItemInQueue, hgx, hres]
    | some i => exact absurd (List.get?_mem (bsearch_sound hres)) hxm

theorem indexOf_error_msg {s : QState} {x : Item} {e : String}
    (h : indexOfItemInQueue s x = .error e) : e = missingTsMsg := by
  cases hgx : tsGet s.tsMap x with
  | none =>
    simp only [indexOfItemInQueue, hgx] at h
    exact absurd h (by simp)
  | some tsX =>
    cases hres : bsearch s.tsMap x tsX s.items (s.items.length + 1) 0
        ((s.items.length : Int) - 1) with
    | error e' =>
      simp only [indexOfItemInQueue, hgx, hres] at h
      have he : e' = e := by simpa using h
      rw [← he]
      exact bsearch_error_msg hres
    | ok res =>
      cases res with
      | none =>
        simp only [indexOfItemInQueue, hgx, hres] at h
        exact absurd h (by simp)
      | some i =>
        simp only [indexOfItemInQueue, hgx, hres] at h
        exact absurd h (by simp)

theorem remove_not_mem {s : QState} {x : Item}
    (hts : ∀ a ∈ s.items, (tsGet s.tsMap a).isSome = true) (hxm : x ∉ s.items) :
    remove s x = (s, none) := by
  simp only [remove, indexOf_not_mem hts hxm]
  rw [if_neg (by omega : ¬ (0:Int) ≤ -1)]

theorem remove_found {s : QState} {x : Item} {tsX : Int} {ix : Nat}
    (hs : sortedSeqB s.tsMap s.items = true) (hk : keysDistinctB s.items = true)
    (hts : ∀ a ∈ s.items, (tsGet s.tsMap a).isSome = true)
    (hgx : tsGet s.tsMap x = some tsX) (hix : s.items.get? ix = some x) :
    remove s x = (⟨s.items.eraseIdx ix, tsDelete s.tsMap x⟩, none) := by
  simp only [remove, indexOf_found hs hk hts hgx hix]
  rw [if_pos (by omega : (0:Int) ≤ (ix : Int))]
  rw [show ((ix : Int)).toNat = ix from by simp]
  rw [hix]

theorem mem_eraseIdx_of_ne {l : List Item} {x y : Item} {ix : Nat}
    (hix : l.get? ix = some x) (hy : y ∈ l) (hne : y ≠ x) : y ∈ l.eraseIdx ix := by
  obtain ⟨j, hj⟩ := List.get?_of_mem hy
  have hji : j ≠ ix := by
    intro hc
    rw [hc, hix] at hj
    exact hne (by simpa using hj.symm)
  rcases Nat.lt_or_ge j ix with hlt | hge
  · refine List.get?_mem (n := j) ?_
    rw [get?_eraseIdx, if_pos hlt]
    exact hj
  · refine List.get?_mem (n := j - 1) ?_
    rw [get?_eraseIdx, if_neg (by omega)]
    rw [show j - 1 + 1 = j by omega]
    exact hj

theorem remove_wf {s : QState} {x : Item}
    (hs : sortedSeqB s.tsMap s.items = true)
    (hts : ∀ a ∈ s.items, (tsGet s.tsMap a).isSome = true)
    (hdom : ∀ y v, tsGet s.tsMap y = some v → y ∈ s.items)
    (hk : keysDistinctB s.items = true) :
    (remove s x).2 = none ∧
    sortedSeqB (remove s x).1.tsMap (remove s x).1.items = true ∧
    (∀ a ∈ (remove s x).1.items, (tsGet (remove s x).1.tsMap a).isSome = true) ∧
    (∀ y v, tsGet (remove s x).1.tsMap y = some v → y ∈ (remove s x).1.items) ∧
    keysDistinctB (remove s x).1.items = true ∧
    x ∉ (remove s x).1.items ∧
    (∀ b ∈ (remove s x).1.items, b ∈ s.items) := by
  by_cases hxm : x ∈ s.items
  · obtain ⟨ix, hix⟩ := List.get?_of_mem hxm
    obtain ⟨tsX, hgx⟩ := Option.isSome_iff_exists.mp (hts x hxm)
    rw [remove_found hs hk hts hgx hix]
    have hxnot : x ∉ s.items.eraseIdx ix := by
      intro hmem
      obtain ⟨j, hj⟩ := List.get?_of_mem hmem
      rw [get?_eraseIdx] at hj
      by_cases hji : j < ix
      · rw [if_pos hji] at hj
        exact absurd (keysDistinct_get?_inj hk hj hix) (by omega)
      · rw [if_neg hji] at hj
        exact absurd (keysDistinct_get?_inj hk hj hix) (by omega)
    have hget' : ∀ b ∈ s.items.eraseIdx ix,
        tsGet (tsDelete s.tsMap x) b = tsGet s.tsMap b := by
      intro b hb
      rw [tsGet_tsDelete, if_neg (fun hc : b = x => hxnot (hc ▸ hb))]
    refine ⟨rfl, ?_, ?_, ?_, keysDistinct_eraseIdx hk, hxnot, ?_⟩
    · rw [sortedSeqB_congr hget']
      exact sorted_eraseIdx hs
    · intro b hb
      rw [hget' b hb]
      exact hts b (mem_of_mem_eraseIdx hb)
    · intro y v hy
      rw [tsGet_tsDelete] at hy
      by_cases hyx : y = x
      · rw [if_pos hyx] at hy
        exact absurd hy (by simp)
      · rw [if_neg hyx] at hy
        exact mem_eraseIdx_of_ne hix (hdom y v hy) hyx
    · intro b hb
      exact mem_of_mem_eraseIdx hb
  · rw [remove_not_mem hts hxm]
    exact ⟨rfl, hs, hts, hdom, hk, hxm, fun b hb => hb⟩

/-! ### Requeue preserves well-formedness -/

theorem requeue_wf (now : Int) (t? : Option Int) {s : QState} {x : Item}
    (hs : sortedSeqB s.tsMap s.items = true)
    (hts : ∀ a ∈ s.items, (tsGet s.tsMap a).isSome = true)
    (hdom : ∀ y v, tsGet s.tsMap y = some v → y ∈ s.items)
    (hk : keysDistinctB s.items = true)
    (hguard : x ∈ s.items ∨ keyFresh x s.items = true) :
    (requeue now s x t?).2 = none ∧
    sortedSeqB (requeue now s x t?).1.tsMap (requeue now s x t?).1.items = true ∧
    (∀ a ∈ (requeue now s x t?).1.items,
      (tsGet (requeue now s x t?).1.tsMap a).isSome = true) ∧
    (∀ y v, tsGet (requeue now s x t?).1.tsMap y = some v →
      y ∈ (requeue now s x t?).1.items) ∧
    keysDistinctB (requeue now s x t?).1.items = true := by
  obtain ⟨hr2, hs1, hts1, hdom1, hk1, hxnot1, hsub1⟩ := remove_wf (x := x) hs hts hdom hk
  set s₁ : QState := (remove s x).1 with hs₁def
  have hrm : remove s x = (s₁, none) := by
    rw [hs₁def, ← hr2]
  have hreq : requeue now s x t? =
      enqueue now ⟨s₁.items, tsSet s₁.tsMap x (t?.getD now)⟩ x none := by
    simp only [requeue, hrm]
  have hfresh1 : keyFresh x s₁.items = true := by
    refine keyFresh_iff.mpr fun b hb => ?_
    have hbs : b ∈ s.items := hsub1 b hb
    have hbx : b ≠ x := fun hc => hxnot1 (hc ▸ hb)
    rcases hguard with hmem | hfresh
    · exact keysDistinct_mem_ne hk b hbs x hmem hbx
    · exact keyFresh_iff.mp hfresh b hbs
  have hget' : ∀ a ∈ s₁.items,
      tsGet (tsSet s₁.tsMap x (t?.getD now)) a = tsGet s₁.tsMap a := by
    intro a ha
    rw [tsGet_tsSet, if_neg (fun hc : a = x => hxnot1 (hc ▸ ha))]
  rw [hreq]
  exact enqueue_wf now none
    (by rw [sortedSeqB_congr hget']; exact hs1)
    (by intro a ha; rw [hget' a ha]; exact hts1 a ha)
    (by
      intro y v hy
      rw [tsGet_tsSet] at hy
      by_cases hyx : y = x
      · exact Or.inr hyx
      · rw [if_neg hyx] at hy
        exact Or.inl (hdom1 y v hy))
    hk1 hfresh1

/-! ### Well-formedness and guarded reachability -/

/-- The inductive invariant of a queue state: the sequence is sorted per the
association, every queued item has an entry, every entry belongs to a queued
item, and keys are pairwise distinct. -/
structure WF (s : QState) : Prop where
  sorted : sortedSeqB s.tsMap s.items = true
  allts : ∀ a ∈ s.items, (tsGet s.tsMap a).isSome = true
  dom : ∀ y v, tsGet s.tsMap y = some v → y ∈ s.items
  keys : keysDistinctB s.items = true

/-- States reachable from the empty queue through the four operations, under the
discipline that an enqueued item's key is fresh and a requeued item is either
already present or has a fresh key.  (Without that discipline the sort invariant
is violable; see the counterexamples.) -/
inductive Reachable : QState → Prop where
  | empty : Reachable emptyQueue
  | enq (now : Int) (x : Item) (t? : Option Int) {s : QState} :
      Reachable s → keyFresh x s.items = true → Reachable (enqueue now s x t?).1
  | deq {s : QState} : Reachable s → Reachable (dequeue s).2
  | rem (x : Item) {s : QState} : Reachable s → Reachable (remove s x).1
  | req (now : Int) (x : Item) (t? : Option Int) {s : QState} :
      Reachable s → (x ∈ s.items ∨ keyFresh x s.items = true) →
      Reachable (requeue now s x t?).1

theorem reachable_wf {s : QState} (h : Reachable s) : WF s := by
  induction h with
  | empty =>
    exact ⟨rfl, by simp [emptyQueue], by intro y v hv; simp [tsGet, emptyQueue] at hv, rfl⟩
  | enq now x t? hr hf ih =>
    obtain ⟨-, h1, h2, h3, h4⟩ :=
      enqueue_wf now t? ih.sorted ih.allts
        (fun y v hv => Or.inl (ih.dom y v hv)) ih.keys hf
    exact ⟨h1, h2, h3, h4⟩
  | deq hr ih =>
    obtain ⟨h1, h2, h3, h4⟩ := dequeue_wf ih.sorted ih.allts ih.dom ih.keys
    exact ⟨h1, h2, h3, h4⟩
  | rem x hr ih =>
    obtain ⟨-, h1, h2, h3, h4, -, -⟩ := remove_wf (x := x) ih.sorted ih.allts ih.dom ih.keys
    exact ⟨h1, h2, h3, h4⟩
  | req now x t? hr hg ih =>
    obtain ⟨-, h1, h2, h3, h4⟩ :=
      requeue_wf now t? ih.sorted ih.allts ih.dom ih.keys hg
    exact ⟨h1, h2, h3, h4⟩

/-! ### Fault behaviour helpers -/

theorem findEndIndex_error_msg {m : TsMap} {ts : Int} {key : String} {items : List Item} :
    ∀ {n : Nat} {e : String}, findEndIndex m ts key items n = .error e → e = missingTsMsg := by
  intro n
  induction n with
  | zero =>
    intro e h
    exact absurd h (by simp [findEndIndex])
  | succ n ih =>
    intro e h
    cases hga : items.get? n with
    | none =>
      simp only [findEndIndex, hga] at h
      simpa using h.symm
    | some a =>
      cases hta : tsGet m a with
      | none =>
        simp only [findEndIndex, hga, hta] at h
        simpa using h.symm
      | some ta =>
        simp only [findEndIndex, hga, hta] at h
        by_cases hbrk : ts > ta ∨ (ts = ta ∧ keyLt a.key key = true)
        · rw [if_pos hbrk] at h
          exact absurd h (by simp)
        · rw [if_neg hbrk] at h
          exact ih h

theorem enqueue_error {now : Int} {s : QState} {x : Item} {t? : Option Int} {e : String}
    (h : (enqueue now s x t?).2 = some e) :
    (enqueue now s x t?).1 = s ∧ e = missingTsMsg := by
  cases heq : findEndIndex s.tsMap ((tsGet s.tsMap x).getD (t?.getD now)) x.key s.items
      s.items.length with
  | error e' =>
    have hE : enqueue now s x t? = (s, some e') := by simp only [enqueue, heq]
    rw [hE] at h ⊢
    have he : e' = e := by simpa using h
    exact ⟨rfl, by rw [← he]; exact findEndIndex_error_msg heq⟩
  | ok p =>
    rw [enqueue_eq_ok heq] at h
    exact absurd h (by simp)

theorem remove_error {s : QState} {x : Item} {e : String} (h : (remove s x).2 = some e) :
    (remove s x).1 = s ∧ e = missingTsMsg := by
  cases hio : indexOfItemInQueue s x with
  | error e' =>
    have hE : remove s x = (s, some e') := by simp only [remove, hio]
    rw [hE] at h ⊢
    have he : e' = e := by simpa using h
    exact ⟨rfl, by rw [← he]; exact indexOf_error_msg hio⟩
  | ok idx =>
    have hnone : (remove s x).2 = none := by
      simp only [remove, hio]
      by_cases hge : (0:Int) ≤ idx
      · rw [if_pos hge]
        cases hgi : s.items.get? idx.toNat with
        | some it => simp only [hgi]
        | none => simp only [hgi]
      · rw [if_neg hge]
    exact absurd (hnone.symm.trans h) (by simp)

theorem getLast?_eq_get?_len {l : List Item} {a : Item} (h : l.getLast? = some a) :
    l.get? (l.length - 1) = some a := by
  rw [← List.getLast?_eq_get?]
  exact h

theorem enqueue_missing_last {now : Int} {s : QState} {x : Item} {t? : Option Int} {a : Item}
    (hlast : s.items.getLast? = some a) (hnone : tsGet s.tsMap a = none) :
    enqueue now s x t? = (s, some missingTsMsg) := by
  obtain ⟨k, hk⟩ : ∃ k, s.items.length = k + 1 := by
    cases hi : s.items with
    | nil =>
      rw [hi] at hlast
      exact absurd hlast (by simp)
    | cons b l => exact ⟨l.length, rfl⟩
  have hget : s.items.get? k = some a := by
    have := getLast?_eq_get?_len hlast
    rwa [hk, Nat.add_sub_cancel] at this
  have hfe : findEndIndex s.tsMap ((tsGet s.tsMap x).getD (t?.getD now)) x.key s.items
      s.items.length = .error missingTsMsg := by
    rw [hk]
    simp only [findEndIndex, hget, hnone]
  simp only [enqueue, hfe]

/-! ### Concrete items and call sequences used in witnesses and counterexamples -/

def keyA : String := "a"

def keyB : String := "b"

def keyX : String := "x"

def itemA : Item := ⟨0, keyA⟩

def itemA2 : Item := ⟨1, keyA⟩

def itemB : Item := ⟨2, keyB⟩

def itemX : Item := ⟨3, keyX⟩

/-- Enqueue the same item twice, a third item, then requeue the duplicated one. -/
def c1Ops : List (Int × Op) :=
  [(0, .enqueueOp itemA (some 100)), (0, .enqueueOp itemA (some 100)),
   (0, .enqueueOp itemB (some 200)), (0, .requeueOp itemA (some 300))]

/-- Enqueue the same item twice, then dequeue once. -/
def c3Ops : List (Int × Op) :=
  [(0, .enqueueOp itemA (some 100)), (0, .enqueueOp itemA (some 100)), (0, .dequeueOp)]

/-- Enqueue two distinct items that share timestamp and key. -/
def c4Ops : List (Int × Op) :=
  [(0, .enqueueOp itemA (some 100)), (0, .enqueueOp itemA2 (some 100))]

/-- Reach a state with an in-queue item lacking a timestamp and a stale entry for an
absent item: double enqueue, dequeue, then requeue of a fresh item (which faults). -/
def c7Ops : List (Int × Op) :=
  [(0, .enqueueOp itemA (some 100)), (0, .enqueueOp itemA (some 100)),
   (0, .dequeueOp), (0, .requeueOp itemX (some 5))]

/-- Enqueue A at 100 and B at 200, then requeue A at 300. -/
def c8Ops : List (Int × Op) :=
  [(0, .enqueueOp itemA (some 100)), (0, .enqueueOp itemB (some 200)),
   (0, .requeueOp itemA (some 300))]

/-! ### C1: the sort invariant -/

/-- C1 (amended): starting from the empty queue, after any sequence of enqueue,
dequeue, remove and requeue calls in which every enqueued item's key is fresh and
every requeued item is either present or has a fresh key, every pair of adjacent
items `a` (earlier) and `b` (later) satisfies `timestamp(a) < timestamp(b)` or
`timestamp(a) = timestamp(b)` and `key(a) ≤ key(b)`. -/
theorem C1_sort_invariant {s : QState} (h : Reachable s) :
    sortedSeqB s.tsMap s.items = true :=
  (reachable_wf h).sorted

theorem C1_sort_invariant_witness :
    sortedSeqB (enqueue 0 emptyQueue itemA (some 100)).1.tsMap
      (enqueue 0 emptyQueue itemA (some 100)).1.items = true :=
  C1_sort_invariant (Reachable.enq 0 itemA (some 100) Reachable.empty (by decide))

/-- C1 (counterexample to the claim as stated): the unguarded call sequence
enqueue A 100, enqueue A 100, enqueue B 200, requeue A 300 completes without any
fault, yet the resulting sequence violates the adjacent-pair sort invariant. -/
theorem C1_counterexample :
    (runOps emptyQueue c1Ops).2 = [] ∧
    sortedSeqB (runOps emptyQueue c1Ops).1.tsMap (runOps emptyQueue c1Ops).1.items
      = false := by
  decide

/-! ### C2: the enqueue insertion position -/

/-- C2: for every queue state satisfying the sort invariant, with every in-queue
item carrying a recorded timestamp, enqueue's backward scan succeeds and returns a
position `p` such that the scan's break test holds at `p - 1` (unless `p = 0`),
fails at every index from `p` on, and the new item is spliced in exactly at `p`. -/
theorem C2_insertion_position (now ts : Int) (s : QState) (x : Item)
    (hsorted : sortedSeqB s.tsMap s.items = true)
    (hts : ∀ a ∈ s.items, (tsGet s.tsMap a).isSome = true) :
    ∃ p, findEndIndex s.tsMap ((tsGet s.tsMap x).getD ts) x.key s.items s.items.length
        = .ok p ∧
      p ≤ s.items.length ∧
      (p = 0 ∨ ∃ a, s.items.get? (p - 1) = some a ∧
        breaksScan s.tsMap ((tsGet s.tsMap x).getD ts) x.key a = true) ∧
      (∀ j b, p ≤ j → s.items.get? j = some b →
        breaksScan s.tsMap ((tsGet s.tsMap x).getD ts) x.key b = false) ∧
      enqueue now s x (some ts) =
        (⟨insertAt p x s.items, tsSet s.tsMap x ((tsGet s.tsMap x).getD ts)⟩, none) := by
  obtain ⟨p, heq, hple, hbef, hall⟩ :=
    findEndIndex_spec s.tsMap ((tsGet s.tsMap x).getD ts) x.key
      (Nat.le_refl s.items.length) hts
  refine ⟨p, heq, hple, hbef, ?_, ?_⟩
  · intro j b hj hjb
    obtain ⟨hjlen, -⟩ := List.get?_eq_some.mp hjb
    exact hall j b hj hjlen hjb
  · exact enqueue_eq_ok heq

theorem C2_insertion_position_witness :
    ∃ p, findEndIndex (⟨[itemA], [(itemA, 100)]⟩ : QState).tsMap
        ((tsGet (⟨[itemA], [(itemA, 100)]⟩ : QState).tsMap itemB).getD 200) itemB.key
        (⟨[itemA], [(itemA, 100)]⟩ : QState).items
        (⟨[itemA], [(itemA, 100)]⟩ : QState).items.length = .ok p ∧
      p ≤ (⟨[itemA], [(itemA, 100)]⟩ : QState).items.length ∧
      (p = 0 ∨ ∃ a, (⟨[itemA], [(itemA, 100)]⟩ : QState).items.get? (p - 1) = some a ∧
        breaksScan (⟨[itemA], [(itemA, 100)]⟩ : QState).tsMap
          ((tsGet (⟨[itemA], [(itemA, 100)]⟩ : QState).tsMap itemB).getD 200) itemB.key a
          = true) ∧
      (∀ j b, p ≤ j → (⟨[itemA], [(itemA, 100)]⟩ : QState).items.get? j = some b →
        breaksScan (⟨[itemA], [(itemA, 100)]⟩ : QState).tsMap
          ((tsGet (⟨[itemA], [(itemA, 100)]⟩ : QState).tsMap itemB).getD 200) itemB.key b
          = false) ∧
      enqueue 0 (⟨[itemA], [(itemA, 100)]⟩ : QState) itemB (some 200) =
        (⟨insertAt p itemB (⟨[itemA], [(itemA, 100)]⟩ : QState).items,
          tsSet (⟨[itemA], [(itemA, 100)]⟩ : QState).tsMap itemB
            ((tsGet (⟨[itemA], [(itemA, 100)]⟩ : QState).tsMap itemB).getD 200)⟩,
          none) :=
  C2_insertion_position 0 200 ⟨[itemA], [(itemA, 100)]⟩ itemB (by decide) (by decide)

/-! ### C3: locate correctness -/

/-- C3 (amended): for every state reachable under the key-discipline (which keeps
all keys pairwise distinct), and every item currently present, the binary-search
locate returns the item's true index: the unique position it occupies. -/
theorem C3_locate_correct {s : QState} (h : Reachable s) {x : Item} (hx : x ∈ s.items) :
    ∃ ix : Nat, indexOfItemInQueue s x = .ok (ix : Int) ∧
      s.items.get? ix = some x ∧ ∀ j, s.items.get? j = some x → j = ix := by
  have hwf := reachable_wf h
  obtain ⟨ix, hix⟩ := List.get?_of_mem hx
  obtain ⟨tsX, hgx⟩ := Option.isSome_iff_exists.mp (hwf.allts x hx)
  exact ⟨ix, indexOf_found hwf.sorted hwf.keys hwf.allts hgx hix, hix,
    fun j hj => keysDistinct_get?_inj hwf.keys hj hix⟩

theorem C3_locate_correct_witness :
    ∃ ix : Nat,
      indexOfItemInQueue (enqueue 0 emptyQueue itemA (some 100)).1 itemA = .ok (ix : Int) ∧
      (enqueue 0 emptyQueue itemA (some 100)).1.items.get? ix = some itemA ∧
      ∀ j, (enqueue 0 emptyQueue itemA (some 100)).1.items.get? j = some itemA → j = ix :=
  C3_locate_correct (Reachable.enq 0 itemA (some 100) Reachable.empty (by decide))
    (by decide)

/-- C3 (counterexample to the claim as stated): enqueue A 100, enqueue A 100,
dequeue is an unguarded API run reaching a state whose keys are pairwise distinct
and in which A occupies index 0, yet locating A returns `-1` (its association entry
was deleted by the dequeue of its other occurrence). -/
theorem C3_counterexample :
    (runOps emptyQueue c3Ops).2 = [] ∧
    keysDistinctB (runOps emptyQueue c3Ops).1.items = true ∧
    (runOps emptyQueue c3Ops).1.items.get? 0 = some itemA ∧
    indexOfItemInQueue (runOps emptyQueue c3Ops).1 itemA = .ok (-1) := by
  refine ⟨by decide, by decide, by decide, ?_⟩
  rfl

/-! ### C4: locate under duplicate ordering keys -/

/-- C4 (amended): a successful binary search always designates the exact item
searched for — whenever `indexOfItemInQueue` returns a non-negative index, the item
at that index is the needle itself, by identity, never a different item that merely
matches on timestamp and key.  (The other half of the original claim is false: with
two distinct items sharing timestamp and key, the search for one of them can
return "not found" although the item is present; see the counterexample.) -/
theorem C4_hit_is_exact {s : QState} {x : Item} {i : Int}
    (h : indexOfItemInQueue s x = .ok i) (hge : 0 ≤ i) :
    s.items.get? i.toNat = some x := by
  cases hgx : tsGet s.tsMap x with
  | none =>
    simp only [indexOfItemInQueue, hgx] at h
    have : i = -1 := by simpa using h.symm
    omega
  | some tsX =>
    cases hres : bsearch s.tsMap x tsX s.items (s.items.length + 1) 0
        ((s.items.length : Int) - 1) with
    | error e =>
      simp only [indexOfItemInQueue, hgx, hres] at h
      exact absurd h (by simp)
    | ok res =>
      cases res with
      | none =>
        simp only [indexOfItemInQueue, hgx, hres] at h
        have : i = -1 := by simpa using h.symm
        omega
      | some j =>
        simp only [indexOfItemInQueue, hgx, hres] at h
        have hij : (j : Int) = i := by simpa using h
        have := bsearch_sound hres
        rwa [← hij, Int.toNat_natCast]

theorem C4_hit_is_exact_witness :
    (⟨[itemA], [(itemA, 100)]⟩ : QState).items.get? ((0 : Int)).toNat = some itemA :=
  C4_hit_is_exact (s := ⟨[itemA], [(itemA, 100)]⟩) (x := itemA) rfl (by decide)

/-- C4 (counterexample to the claim as stated): after enqueue A 100 and enqueue A2
100 — two distinct items with identical key and timestamp — the identity
short-circuit does not save the search for A: the midpoint probe hits A2, the
tie-break sends the search left, and the result is "not found" (`-1`) even though A
sits at index 1. -/
theorem C4_counterexample :
    (runOps emptyQueue c4Ops).2 = [] ∧
    itemA ≠ itemA2 ∧
    itemA2.key = itemA.key ∧
    tsGet (runOps emptyQueue c4Ops).1.tsMap itemA = some 100 ∧
    tsGet (runOps emptyQueue c4Ops).1.tsMap itemA2 = some 100 ∧
    (runOps emptyQueue c4Ops).1.items.get? 1 = some itemA ∧
    indexOfItemInQueue (runOps emptyQueue c4Ops).1 itemA = .ok (-1) := by
  refine ⟨by decide, by decide, by decide, by decide, by decide, by decide, ?_⟩
  rfl

/-! ### C5: enqueue timestamp precedence -/

/-- C5: if the item already has a recorded timestamp, enqueue ignores both the
supplied timestamp and the clock (the result is the same for any of them) and the
recorded value is what stays recorded; otherwise the supplied timestamp is used and
recorded, an omitted timestamp defaulting to the current time. -/
theorem C5_timestamp_precedence :
    (∀ (now₁ now₂ : Int) (s : QState) (x : Item) (rec : Int) (t₁ t₂ : Option Int),
      tsGet s.tsMap x = some rec →
      enqueue now₁ s x t₁ = enqueue now₂ s x t₂ ∧
      (∀ s', enqueue now₁ s x t₁ = (s', none) → tsGet s'.tsMap x = some rec)) ∧
    (∀ (now : Int) (s : QState) (x : Item) (t : Int) (s' : QState),
      tsGet s.tsMap x = none → enqueue now s x (some t) = (s', none) →
      tsGet s'.tsMap x = some t) ∧
    (∀ (now : Int) (s : QState) (x : Item),
      enqueue now s x none = enqueue now s x (some now)) := by
  refine ⟨?_, ?_, ?_⟩
  · intro now₁ now₂ s x rec t₁ t₂ h
    constructor
    · simp only [enqueue, h, Option.getD_some]
    · intro s' hs'
      cases heq : findEndIndex s.tsMap rec x.key s.items s.items.length with
      | error e =>
        simp only [enqueue, h, Option.getD_some, heq] at hs'
        exact absurd (congrArg Prod.snd hs') (by simp)
      | ok p =>
        simp only [enqueue, h, Option.getD_some, heq] at hs'
        have hm := congrArg (fun q : QState × Option String => q.1.tsMap) hs'
        simp only at hm
        rw [← hm, tsGet_tsSet_self]
  · intro now s x t s' h hs'
    cases heq : findEndIndex s.tsMap t x.key s.items s.items.length with
    | error e =>
      simp only [enqueue, h, Option.getD_some, Option.getD_none, heq] at hs'
      exact absurd (congrArg Prod.snd hs') (by simp)
    | ok p =>
      simp only [enqueue, h, Option.getD_some, Option.getD_none, heq] at hs'
      have hm := congrArg (fun q : QState × Option String => q.1.tsMap) hs'
      simp only at hm
      rw [← hm, tsGet_tsSet_self]
  · intro now s x
    rfl

theorem C5_timestamp_precedence_witness :
    tsGet (⟨[itemA], [(itemA, 100)]⟩ : QState).tsMap itemA = some 100 :=
  (C5_timestamp_precedence.2.1 0 emptyQueue itemA 100 ⟨[itemA], [(itemA, 100)]⟩
    (by decide) (by decide))

/-! ### C6: dequeue -/

/-- C6: on a non-empty queue, dequeue returns the front item and the state whose
sequence is the unchanged remainder and whose association lost exactly that item's
entry; on the empty queue it returns the `none` absence signal and the state
unchanged. -/
theorem C6_dequeue_front :
    (∀ (s : QState) (x : Item) (rest : List Item), s.items = x :: rest →
      dequeue s = (some x, ⟨rest, tsDelete s.tsMap x⟩)) ∧
    (∀ s : QState, s.items = [] → dequeue s = (none, s)) := by
  constructor
  · intro s x rest h
    simp only [dequeue, h]
  · intro s h
    simp only [dequeue, h]

theorem C6_dequeue_front_witness :
    dequeue ⟨[itemA, itemB], [(itemA, 100), (itemB, 200)]⟩ =
      (some itemA, ⟨[itemB], tsDelete [(itemA, 100), (itemB, 200)] itemA⟩) :=
  C6_dequeue_front.1 ⟨[itemA, itemB], [(itemA, 100), (itemB, 200)]⟩ itemA [itemB] rfl

/-! ### C7: remove on an absent item -/

/-- C7 (amended): for every queue state in which every in-queue item has a recorded
timestamp, and every item X not present in the queue, remove(X) leaves the sequence
returned by list() unchanged and does not fault — absence is a normal outcome.
(Without the recorded-timestamp condition on the queue the claim as stated is
false; see the counterexample, which removes an absent-but-once-requeued item from
a corrupted queue and faults.) -/
theorem C7_remove_absent_noop {s : QState} {x : Item}
    (hts : ∀ a ∈ s.items, (tsGet s.tsMap a).isSome = true)
    (hx : x ∉ s.items) :
    remove s x = (s, none) ∧ list (remove s x).1 = list s := by
  have h := remove_not_mem hts hx
  exact ⟨h, by rw [h]⟩

theorem C7_remove_absent_noop_witness :
    remove (⟨[itemA], [(itemA, 100)]⟩ : QState) itemB =
      ((⟨[itemA], [(itemA, 100)]⟩ : QState), none) ∧
    list (remove (⟨[itemA], [(itemA, 100)]⟩ : QState) itemB).1 =
      list (⟨[itemA], [(itemA, 100)]⟩ : QState) :=
  C7_remove_absent_noop (by decide) (by decide)

/-- C7 (counterexample to the claim as stated): after enqueue A 100, enqueue A 100,
dequeue, requeue X 5 (which faults inside its enqueue step, leaving A in the queue
without a timestamp and a stale entry for the absent X), the call remove(X) does
fault instead of being a no-op. -/
theorem C7_counterexample :
    itemX ∉ (runOps emptyQueue c7Ops).1.items ∧
    (remove (runOps emptyQueue c7Ops).1 itemX).2 = some missingTsMsg := by
  refine ⟨by decide, ?_⟩
  rfl

/-! ### C8: requeue uses the newly assigned timestamp -/

/-- C8: concretely, after enqueue A (ts 100) and B (ts 200), requeue(A, 300) runs
without fault and yields order [B, A] with A's recorded timestamp 300 — the stale
timestamp 100 plays no role; and in general, every successful requeue with an
explicit timestamp `t` leaves `t` recorded for the item. -/
theorem C8_requeue_new_timestamp :
    ((runOps emptyQueue c8Ops).2 = [] ∧
     (runOps emptyQueue c8Ops).1.items = [itemB, itemA] ∧
     tsGet (runOps emptyQueue c8Ops).1.tsMap itemA = some 300) ∧
    (∀ (now : Int) (s : QState) (x : Item) (t : Int) (s' : QState),
      requeue now s x (some t) = (s', none) → tsGet s'.tsMap x = some t) := by
  refine ⟨⟨by decide, by decide, by decide⟩, ?_⟩
  intro now s x t s' h
  rcases hrm : remove s x with ⟨s₁, e⟩
  cases e with
  | some e' =>
    simp only [requeue, hrm] at h
    exact absurd (congrArg Prod.snd h) (by simp)
  | none =>
    simp only [requeue, hrm, Option.getD_some] at h
    have hg : tsGet (tsSet s₁.tsMap x t) x = some t := tsGet_tsSet_self _ x t
    cases heq : findEndIndex (tsSet s₁.tsMap x t) t x.key s₁.items s₁.items.length with
    | error e2 =>
      simp only [enqueue, hg, Option.getD_some, Option.getD_none, heq] at h
      exact absurd (congrArg Prod.snd h) (by simp)
    | ok p =>
      simp only [enqueue, hg, Option.getD_some, Option.getD_none, heq] at h
      have hm := congrArg (fun q : QState × Option String => q.1.tsMap) h
      simp only at hm
      rw [← hm, tsGet_tsSet_self]

theorem C8_requeue_new_timestamp_witness :
    tsGet (⟨[itemX], [(itemX, 5)]⟩ : QState).tsMap itemX = some 5 :=
  C8_requeue_new_timestamp.2 0 emptyQueue itemX 5 ⟨[itemX], [(itemX, 5)]⟩ rfl

/-! ### C9: missing-timestamp fault and atomicity -/

/-- C9: whenever enqueue's backward scan or locate's binary search reaches an item
without a recorded timestamp the operation raises the distinguishable
"Missing timestamp for item in queue" fault — never a silent default — and the
faulting operation leaves the sequence and the association exactly as they were:
a faulting enqueue or remove returns the unchanged state, any locate fault carries
that message, and (as an explicit trigger) a missing timestamp on the last item,
the first one the scan reaches, always faults enqueue. -/
theorem C9_fault_is_atomic :
    (∀ (now : Int) (s : QState) (x : Item) (t? : Option Int) (e : String),
      (enqueue now s x t?).2 = some e →
      (enqueue now s x t?).1 = s ∧ e = missingTsMsg) ∧
    (∀ (s : QState) (x : Item) (e : String),
      (remove s x).2 = some e → (remove s x).1 = s ∧ e = missingTsMsg) ∧
    (∀ (s : QState) (x : Item) (e : String),
      indexOfItemInQueue s x = .error e → e = missingTsMsg) ∧
    (∀ (now : Int) (s : QState) (x : Item) (t? : Option Int) (a : Item),
      s.items.getLast? = some a → tsGet s.tsMap a = none →
      enqueue now s x t? = (s, some missingTsMsg)) :=
  ⟨fun _ _ _ _ _ h => enqueue_error h,
   fun _ _ _ h => remove_error h,
   fun _ _ _ h => indexOf_error_msg h,
   fun _ _ _ _ _ hl hn => enqueue_missing_last hl hn⟩

theorem C9_fault_is_atomic_witness :
    enqueue 0 (⟨[itemA], []⟩ : QState) itemB (some 5) =
      ((⟨[itemA], []⟩ : QState), some missingTsMsg) :=
  C9_fault_is_atomic.2.2.2 0 ⟨[itemA], []⟩ itemB (some 5) itemA rfl rfl

/-! ### C10: determinism; the clock is consulted only for the omitted default -/

/-- C10: the operations are pure functions of the state and their arguments — in
particular enqueue and requeue with an explicit timestamp argument return the same
result and state whatever the ambient clock reads, so the clock matters only for
computing the default of an omitted timestamp (dequeue, remove and list take no
clock at all, as their signatures show). -/
theorem C10_explicit_timestamp_determinism :
    (∀ (now₁ now₂ : Int) (s : QState) (x : Item) (t : Int),
      enqueue now₁ s x (some t) = enqueue now₂ s x (some t)) ∧
    (∀ (now₁ now₂ : Int) (s : QState) (x : Item) (t : Int),
      requeue now₁ s x (some t) = requeue now₂ s x (some t)) := by
  constructor
  · intro now₁ now₂ s x t
    rfl
  · intro now₁ now₂ s x t
    rcases hrm : remove s x with ⟨s₁, e⟩
    cases e with
    | some e' => simp only [requeue, hrm]
    | none =>
      simp only [requeue, hrm, Option.getD_some]
      have hg : tsGet (tsSet s₁.tsMap x t) x = some t := tsGet_tsSet_self _ x t
      simp only [enqueue, hg, Option.getD_some, Option.getD_none]
